import Mathlib

/-!
Verification of the deterministic maze/graph engine of the
"Laberinto Fantasma" 6×6 board configurator
(`src/components/LaberintoFantasmaConfigurator.tsx`).

The engine is translated as a shallow embedding:

* JavaScript numbers are modelled exactly: all bitwise operations work on
  the low 32 bits (`% 2^32`), and the two places where the source performs
  a 64-bit floating-point multiplication whose result can exceed 2^53
  (`seedToInt`'s `h * 16777619` and `rand() * n`) are modelled by `roundNat`,
  round-to-nearest-even at 53 significant bits, which is exactly IEEE-754
  double rounding for integer values.
* JavaScript strings are sequences of UTF-16 code units, modelled as
  `List Nat`.
* `Set<string>` of edge keys is modelled as `Finset` of canonical cell
  pairs (`edgeKey` is injective on coordinate pairs), and where iteration
  order matters (`Array.from` in `addExtraWalls`) insertion order is
  modelled by the corresponding ordered list.
-/

namespace Laberinto

/-- 2^32, the modulus of all JavaScript 32-bit bit operations. -/
def W32 : Nat := 4294967296

/-- Structural (fuel-based) binary logarithm, equal to `Nat.log2`;
defined this way so that it evaluates inside the kernel. -/
def log2F : Nat → Nat → Nat
  | 0, _ => 0
  | fuel + 1, x => if x < 2 then 0 else log2F fuel (x / 2) + 1

/-- `⌊log₂ x⌋` (0 for `x = 0`), kernel-computable. -/
def nlog2 (x : Nat) : Nat := log2F x x

/-- Round a natural number to the value of the nearest IEEE-754 double
(round to nearest, ties to even), i.e. to the nearest multiple of
`2 ^ (log2 x - 52)` once `x` reaches `2^53`.  Exact below `2^53`. -/
def roundNat (x : Nat) : Nat :=
  if x < 2 ^ 53 then x
  else
    let e := nlog2 x - 52
    let q := x / 2 ^ e
    let r := x % 2 ^ e
    if 2 * r < 2 ^ e then q * 2 ^ e
    else if 2 ^ e < 2 * r then (q + 1) * 2 ^ e
    else if q % 2 = 0 then q * 2 ^ e else (q + 1) * 2 ^ e

/-- Double rounding for signed integer values (rounding is symmetric). -/
def roundInt (x : Int) : Int :=
  if 0 ≤ x then (roundNat x.toNat : Int) else -(roundNat (-x).toNat : Int)

/-- `x >>> 0` on an integer-valued JavaScript number: the low 32 bits. -/
def toUInt32 (h : Int) : Nat := (h % (W32 : Int)).toNat

/-- One step of `seedToInt`'s loop: `h = (h ^ s.charCodeAt(i)) * 16777619`.
The XOR coerces `h` to 32 bits, but the multiplication is a 64-bit
floating-point multiplication (not `Math.imul`), so its result keeps the
high bits and is rounded to 53 significant bits. -/
def seedToIntStep (h : Int) (code : Nat) : Int :=
  let u := toUInt32 h
  let v := u ^^^ code
  let s : Int := if v < 2 ^ 31 then (v : Int) else (v : Int) - (W32 : Int)
  roundInt (s * 16777619)

/-- `seedToInt` from the source: FNV-1a-style hash of the seed's UTF-16
code units, with JavaScript float arithmetic, finally `h >>> 0`. -/
def seedToInt (codes : List Nat) : Nat :=
  toUInt32 (codes.foldl seedToIntStep 2166136261)

/-- The recurrence claimed by the spec for `seedToInt`: truncate
`(h XOR code) * 16777619` to 32 bits at every step. -/
def fnvTrunc (codes : List Nat) : Nat :=
  codes.foldl (fun h code => ((h ^^^ code) * 16777619) % W32) 2166136261

/-- Whether every multiplication performed by `seedToInt` on this input is
exactly representable as an IEEE-754 double (no rounding happens). -/
def seedToIntExact (codes : List Nat) : Bool :=
  (codes.foldl
    (fun st code =>
      let p := seedToIntStep st.1 code
      let u := toUInt32 st.1
      let v := u ^^^ code
      let s : Int := if v < 2 ^ 31 then (v : Int) else (v : Int) - (W32 : Int)
      (p, st.2 && (roundInt (s * 16777619) == s * 16777619)))
    ((2166136261 : Int), true)).2

/-- One call of the closure returned by `mulberry32`, starting from state
`a`: the new state is `a + 0x6d2b79f5` (kept exact, as the JavaScript
closure variable is), and the returned 32-bit value is computed from it.
All bitwise operations coincide, modulo 2^32, with the signed-int32
operations JavaScript performs. -/
def mulberryOut (a : Nat) : Nat :=
  let t0 := a % W32
  let t1 := ((t0 ^^^ (t0 >>> 15)) * (t0 ||| 1)) % W32
  let t2 := t1 ^^^ ((t1 + ((t1 ^^^ (t1 >>> 7)) * (t1 ||| 61)) % W32) % W32)
  t2 ^^^ (t2 >>> 14)

/-- Advance the PRNG: returns (32-bit output, new state). -/
def randStep (a : Nat) : Nat × Nat :=
  (mulberryOut (a + 0x6d2b79f5), a + 0x6d2b79f5)

/-- `Math.floor(rand() * n)`: `rand()` is `u / 2^32` exactly, and the
product with `n` is rounded to double precision before flooring. -/
def randIdx (a n : Nat) : Nat × Nat :=
  let p := randStep a
  (roundNat (p.1 * n) / W32, p.2)

/-- UTF-16 code units of a Lean string literal (all literals used by the
source are ASCII, where `Char.toNat` agrees with `charCodeAt`). -/
def strCodes (s : String) : List Nat := s.data.map Char.toNat

/-! ### Grid topology -/

/-- A board cell `(row, col)`; the engine's grid is 6×6. -/
abbrev Cell := Nat × Nat

/-- A canonical edge: an ordered pair of cells, smaller cell first. -/
abbrev EdgeP := Cell × Cell

/-- `edgeKey`: canonicalize an unordered pair of cells (the source encodes
the canonical pair as the string `"r1,c1|r2,c2"`; the encoding is injective
on coordinate pairs, so the pair itself is a faithful model of the key). -/
def edgeKey (a b : Cell) : EdgeP :=
  if a.1 < b.1 ∨ (a.1 = b.1 ∧ a.2 ≤ b.2) then (a, b) else (b, a)

/-- `neighbors`: in-bounds up/down/left/right cells, in the source's order. -/
def neighbors (r c : Nat) : List Cell :=
  (if 0 < r then [(r - 1, c)] else []) ++
  (if r < 5 then [(r + 1, c)] else []) ++
  (if 0 < c then [(r, c - 1)] else []) ++
  (if c < 5 then [(r, c + 1)] else [])

/-- `allInternalEdges` in insertion order: all horizontal edges row by row,
then all vertical edges row by row. -/
def allInternalEdgesList : List EdgeP :=
  ((List.range 6).flatMap fun r =>
    (List.range 5).map fun c => edgeKey (r, c) (r, c + 1)) ++
  ((List.range 5).flatMap fun r =>
    (List.range 6).map fun c => edgeKey (r, c) (r + 1, c))

/-- The set of all 60 internal edges of the 6×6 grid. -/
def allInternalEdges : Finset EdgeP := allInternalEdgesList.toFinset

/-- The 36 cells of the grid. -/
def cellsFinset : Finset Cell := Finset.range 6 ×ˢ Finset.range 6

/-- `passagesFromWalls`: the open edges, `all_edges − walls`. -/
def passagesFromWalls (walls : Finset EdgeP) : Finset EdgeP :=
  allInternalEdges \ walls

/-! ### Connectivity check (`graphConnected`)

The source builds an adjacency list from the passage edges and runs a
stack-based traversal from `(0,0)`, counting the cells reached.  The set
that the traversal computes is the reachability closure of `(0,0)` under
the passage edges; we model it as 36 rounds of one-step expansion (36
rounds always reach the fixpoint on 36 cells). -/

/-- One expansion round: add every cell adjacent through an edge of `E`
to a cell already reached. -/
def estep (E : Finset EdgeP) (S : Finset Cell) : Finset Cell :=
  S ∪ S.biUnion fun p =>
    ((neighbors p.1 p.2).filter fun q => decide (edgeKey p q ∈ E)).toFinset

/-- Cells reachable from `(0,0)` within `n` steps through edges of `E`. -/
def creach (E : Finset EdgeP) : Nat → Finset Cell
  | 0 => {((0 : Nat), (0 : Nat))}
  | n + 1 => estep E (creach E n)

/-- `graphConnected`: the traversal from `(0,0)` over the passage graph
reaches all `ROWS*COLS = 36` cells. -/
def graphConnected (walls : Finset EdgeP) : Bool :=
  (creach (passagesFromWalls walls) 36).card == 36

/-! ### Maze generation (`generatePerfectMaze`) -/

/-- The mutable state of the carving loop.  `visited` is the insertion log
of the JavaScript `Set` (new cells are consed on), `stack`'s head is the
top (the source reads `stack[stack.length-1]` and pushes/pops at the end). -/
structure MazeState where
  carved : List EdgeP
  visited : List Cell
  stack : List Cell
  rng : Nat

/-- One iteration of the carving `while` loop. -/
def mazeStep (st : MazeState) : MazeState :=
  match st.stack with
  | [] => st
  | cur :: rest =>
    let unvis := (neighbors cur.1 cur.2).filter fun q => decide (q ∉ st.visited)
    if unvis.length = 0 then { st with stack := rest }
    else
      let p := randIdx st.rng unvis.length
      let nc := unvis.getD p.1 ((0 : Nat), (0 : Nat))
      { carved := st.carved ++ [edgeKey cur nc]
        visited := nc :: st.visited
        stack := nc :: cur :: rest
        rng := p.2 }

/-- The carving loop, with fuel.  The loop needs at most 71 iterations
(35 pushes and 36 pops); `generatePerfectMaze` runs it with fuel 100. -/
def mazeLoop : Nat → MazeState → MazeState
  | 0, st => st
  | n + 1, st => if st.stack.isEmpty then st else mazeLoop n (mazeStep st)

/-- Initial carving state for a seed. -/
def mazeInit (codes : List Nat) : MazeState :=
  ⟨[], [((0 : Nat), (0 : Nat))], [((0 : Nat), (0 : Nat))], seedToInt codes⟩

/-- The state after the carving loop has run. -/
def mazeFinal (codes : List Nat) : MazeState := mazeLoop 100 (mazeInit codes)

/-- `generatePerfectMaze`: the wall set — all internal edges minus the
carved passages. -/
def generatePerfectMaze (codes : List Nat) : Finset EdgeP :=
  allInternalEdges \ (mazeFinal codes).carved.toFinset

/-! ### Seeded Fisher–Yates shuffle -/

/-- Swap positions `i` and `j` of a list (no-op if out of range; the
callers always use in-range indices). -/
def lswap (l : List α) (i j : Nat) : List α :=
  match l[i]?, l[j]? with
  | some x, some y => (l.set i y).set j x
  | _, _ => l

/-- The shuffle loop: `for (i = len-1; i > 0; i--) swap(a[i], a[floor(rand()*(i+1))])`,
recursing on the current index `i`. -/
def fyAux : Nat → Nat → List α → List α
  | 0, _, a => a
  | i + 1, st, a =>
    let p := randIdx st (i + 2)
    fyAux i p.2 (lswap a (i + 1) p.1)

/-- Fisher–Yates driven by a mulberry32 state. -/
def fisherYates (l : List α) (st : Nat) : List α :=
  fyAux (l.length - 1) st l

/-- `seededShuffle`: shuffle a copy of the array, PRNG seeded by the seed
string's hash. -/
def seededShuffle (l : List α) (codes : List Nat) : List α :=
  fisherYates l (seedToInt codes)

/-! ### Wall augmentation (`addExtraWalls`) -/

/-- Result of `addExtraWalls`: the object `{ walls, added }`. -/
structure AWResult where
  walls : Finset EdgeP
  added : Nat

/-- The candidate loop of `addExtraWalls`: for each shuffled passage, stop
once `added ≥ extra`; otherwise tentatively close it and commit only if
the graph stays connected. -/
def awLoop (extra : Nat) : List EdgeP → Finset EdgeP → Nat → AWResult
  | [], w, added => ⟨w, added⟩
  | e :: rest, w, added =>
    if extra ≤ added then ⟨w, added⟩
    else
      let cand := insert e w
      if graphConnected cand then awLoop extra rest cand (added + 1)
      else awLoop extra rest w added

/-- `addExtraWalls`: shuffle the current passages (`Array.from` of the
passage set yields them in `allInternalEdges` insertion order) with an
independent PRNG stream (`seedToInt(seed) ^ 0x1234abcd`), then close as
many as allowed without disconnecting the grid. -/
def addExtraWalls (walls : Finset EdgeP) (extra : Nat) (codes : List Nat) :
    AWResult :=
  let passages := fisherYates (allInternalEdgesList.filter fun e => decide (e ∉ walls))
    (seedToInt codes ^^^ 0x1234abcd)
  awLoop extra passages walls 0

/-! ### Target selection (from `generateAll`) -/

/-- A cell's payload: word text and category. -/
structure CellInfo where
  text : String
  cat : String

/-- The target-selection step of `generateAll`: filter the cell map's
entries by category, then either take them all (if at most `targetCount`)
or take the first `targetCount` of a seeded shuffle with the dedicated
`"|targets"` stream. -/
def selectTargets (cells : List (Cell × CellInfo)) (targetCat : String)
    (targetCount : Nat) (codes : List Nat) : List Cell :=
  let candidates := (cells.filter fun p => p.2.cat == targetCat).map Prod.fst
  if candidates.length ≤ targetCount then candidates
  else (seededShuffle candidates (codes ++ strCodes "|targets")).take targetCount

/-! ### CSV parsing (`parseCSV`)

Strings are modelled as `List Char`.  `String.prototype.trim` and
`toLowerCase` are modelled for the ASCII range (the whitespace characters
space, `\t`, `\n`, `\r`, `\v`, `\f` and the letters `A`–`Z`), which covers
every string the configurator produces. -/

/-- JavaScript whitespace (ASCII part). -/
def isWSChar (c : Char) : Bool :=
  c == ' ' || c == '\t' || c == '\n' || c == '\r' ||
  c == Char.ofNat 11 || c == Char.ofNat 12

/-- `toLowerCase` on one character (ASCII range). -/
def jsToLowerChar (c : Char) : Char :=
  if 65 ≤ c.toNat ∧ c.toNat ≤ 90 then Char.ofNat (c.toNat + 32) else c

/-- `trim`: drop whitespace from both ends. -/
def trimL (l : List Char) : List Char :=
  ((l.dropWhile isWSChar).reverse.dropWhile isWSChar).reverse

/-- `split` on a single-character separator (JavaScript semantics:
`"".split(sep) = [""]`, separators at the ends yield empty fields). -/
def splitSep (sep : Char) : List Char → List (List Char)
  | [] => [[]]
  | c :: rest =>
    match splitSep sep rest with
    | [] => [[]]
    | h :: t => if c = sep then [] :: h :: t else (c :: h) :: t

/-- Remove one trailing `\r`; splitting on `\n` and stripping a trailing
`\r` models the source's `split(/\r?\n/)`. -/
def stripCR (l : List Char) : List Char :=
  if l.getLast? = some '\r' then l.dropLast else l

/-- The leading decimal-digit run, as a number; `none` if there is none. -/
def digitsVal (l : List Char) : Option Nat :=
  let ds := l.takeWhile Char.isDigit
  if ds.isEmpty then none
  else some (ds.foldl (fun acc d => acc * 10 + (d.toNat - 48)) 0)

/-- `parseInt(s, 10)`: skip leading whitespace, optional sign, maximal
digit run; `none` models `NaN`. -/
def jsParseInt (l : List Char) : Option Int :=
  match l.dropWhile isWSChar with
  | '-' :: t => (digitsVal t).map fun n => -(n : Int)
  | '+' :: t => (digitsVal t).map fun n => (n : Int)
  | l1 => (digitsVal l1).map fun n => (n : Int)

/-- `parseCSV`: split into lines, trim, drop empties; for each line split
on commas, require at least 4 fields, parse both coordinates, drop the
line on `NaN` or out-of-range coordinates; the text is the middle fields
re-joined and trimmed, the category is the last field trimmed and
lowercased. -/
def parseCSV (text : List Char) :
    List (Int × Int × List Char × List Char) :=
  ((((splitSep '\n' text).map stripCR).map trimL).filter
      fun l => !l.isEmpty).filterMap fun line =>
    let parts := splitSep ',' line
    if parts.length < 4 then none
    else
      match jsParseInt (parts.getD 0 []), jsParseInt (parts.getD 1 []) with
      | some r, some c =>
        if r < 0 ∨ 6 ≤ r ∨ c < 0 ∨ 6 ≤ c then none
        else some (r, c,
          trimL (List.intercalate [','] ((parts.drop 2).dropLast)),
          (trimL (parts.getD (parts.length - 1) [])).map jsToLowerChar)
      | _, _ => none

/-! ### Derived notions used by the statements -/

/-- The simple graph on cells whose edges are the members of `E`
(in particular, for `E` the passage set, the passage graph). -/
def mazeGraph (E : Finset EdgeP) : SimpleGraph Cell where
  Adj x y := x ≠ y ∧ edgeKey x y ∈ E
  symm := by
    intro x y h
    refine ⟨Ne.symm h.1, ?_⟩
    have hc : edgeKey y x = edgeKey x y := by
      rcases x with ⟨x1, x2⟩
      rcases y with ⟨y1, y2⟩
      unfold edgeKey
      simp only
      split_ifs with h1 h2 h2 <;>
        first
          | rfl
          | (exfalso; omega)
          | (have : x1 = y1 ∧ x2 = y2 := by omega
             simp [this.1, this.2])
    exact hc ▸ h.2
  loopless := fun x h => h.1 rfl

/-- Ghost description of the carving order: starting from the vertex list
`vs`, each recorded pair carves an edge from an already-reached vertex to
a fresh one. -/
def GrowsFrom : List Cell → List (Cell × Cell) → Prop
  | _, [] => True
  | vs, q :: rest => q.1 ∈ vs ∧ q.2 ∉ vs ∧ GrowsFrom (q.2 :: vs) rest

/-- Termination measure of the carving loop. -/
def mazeMeasure (st : MazeState) : Nat :=
  2 * (36 - st.visited.length) + st.stack.length

/-- The vertex list after carving the pairs of `ord`, newest first,
starting from `vs`. -/
def endVerts (vs : List Cell) (ord : List (Cell × Cell)) : List Cell :=
  (ord.map Prod.snd).reverse ++ vs

/-- The carved-edge list described by an order of carvings. -/
def carvedOf (ord : List (Cell × Cell)) : List EdgeP :=
  ord.map fun q => edgeKey q.1 q.2

/-- The loop invariant of the carving loop: the stack holds distinct
visited cells; visited cells are grid cells, recorded once each; a
visited cell off the stack has all of its neighbors visited; and the
carved list together with the visited log is described by a carving
order `ord` in which each edge joins an already-visited cell to a fresh
one (`GrowsFrom`). -/
structure MazeInv (st : MazeState) : Prop where
  stackSub : ∀ x ∈ st.stack, x ∈ st.visited
  stackNodup : st.stack.Nodup
  visNodup : st.visited.Nodup
  visGrid : ∀ x ∈ st.visited, x.1 < 6 ∧ x.2 < 6
  closed : ∀ v ∈ st.visited, v ∉ st.stack → ∀ q ∈ neighbors v.1 v.2, q ∈ st.visited
  ghost : ∃ ord : List (Cell × Cell),
    st.carved = carvedOf ord ∧
    st.visited = endVerts [((0 : Nat), (0 : Nat))] ord ∧
    GrowsFrom [((0 : Nat), (0 : Nat))] ord ∧
    ∀ q ∈ ord, edgeKey q.1 q.2 ∈ allInternalEdges ∧ q.1 ≠ q.2

/-! ## Arithmetic facts about the PRNG and double rounding -/

theorem log2F_eq (fuel x : Nat) (h : x ≤ fuel) : log2F fuel x = Nat.log2 x := by
  induction fuel generalizing x with
  | zero =>
    have hx : x = 0 := Nat.le_zero.mp h
    subst hx
    rw [Nat.log2]
    simp [log2F]
  | succ f ih =>
    unfold log2F
    by_cases h2 : x < 2
    · rw [if_pos h2]
      conv_rhs => rw [Nat.log2]
      rw [if_neg (by omega)]
    · rw [if_neg h2, ih (x / 2) (by omega)]
      conv_rhs => rw [Nat.log2]
      rw [if_pos (by omega)]

theorem nlog2_eq (x : Nat) : nlog2 x = Nat.log2 x := log2F_eq x x le_rfl

theorem two_pow_nlog2_le {x : Nat} (hx : x ≠ 0) : 2 ^ nlog2 x ≤ x := by
  rw [nlog2_eq, Nat.log2_eq_log_two]
  exact Nat.pow_log_le_self 2 hx

theorem le_nlog2 {k x : Nat} (hx : x ≠ 0) (h : 2 ^ k ≤ x) : k ≤ nlog2 x := by
  rw [nlog2_eq, Nat.log2_eq_log_two]
  exact (Nat.pow_le_iff_le_log one_lt_two hx).mp h

theorem roundNat_eq_of_lt {x : Nat} (h : x < 2 ^ 53) : roundNat x = x := by
  unfold roundNat
  rw [if_pos h]

theorem roundNat_le_half {x : Nat} (h : 2 ^ 53 ≤ x) :
    roundNat x ≤ x + 2 ^ (nlog2 x - 53) := by
  have hx0 : x ≠ 0 := by positivity
  have h53 : 53 ≤ nlog2 x := le_nlog2 hx0 h
  unfold roundNat
  rw [if_neg (not_lt.mpr h)]
  have hPH : 2 ^ (nlog2 x - 52) = 2 * 2 ^ (nlog2 x - 53) := by
    have he : nlog2 x - 52 = (nlog2 x - 53) + 1 := by omega
    rw [he, pow_succ]
    ring
  have hdm : x / 2 ^ (nlog2 x - 52) * 2 ^ (nlog2 x - 52) + x % 2 ^ (nlog2 x - 52) = x :=
    Nat.div_add_mod' x _
  have hexp : (x / 2 ^ (nlog2 x - 52) + 1) * 2 ^ (nlog2 x - 52)
      = x / 2 ^ (nlog2 x - 52) * 2 ^ (nlog2 x - 52) + 2 ^ (nlog2 x - 52) :=
    Nat.add_one_mul _ _
  have hrlt : x % 2 ^ (nlog2 x - 52) < 2 ^ (nlog2 x - 52) :=
    Nat.mod_lt _ (by positivity)
  dsimp only
  split_ifs with h1 h2 h3 <;> omega

theorem xor_shiftRight_lt {x n k : Nat} (h : x < 2 ^ n) : x ^^^ (x >>> k) < 2 ^ n :=
  Nat.xor_lt_two_pow h
    (Nat.lt_of_le_of_lt ((Nat.shiftRight_eq_div_pow x k) ▸ Nat.div_le_self x (2 ^ k)) h)

theorem mulberryOut_lt (a : Nat) : mulberryOut a < 2 ^ 32 := by
  have hWpos : 0 < W32 := by norm_num [W32]
  have hmod : ∀ y : Nat, y % W32 < 2 ^ 32 := fun y => by
    calc y % W32 < W32 := Nat.mod_lt y hWpos
    _ = 2 ^ 32 := by norm_num [W32]
  unfold mulberryOut
  exact xor_shiftRight_lt (Nat.xor_lt_two_pow (hmod _) (hmod _))

theorem roundNat_div_lt {u n : Nat} (hu : u < 2 ^ 32) (hn : 0 < n) :
    roundNat (u * n) / W32 < n := by
  have hW : (W32 : Nat) = 2 ^ 32 := by norm_num [W32]
  rcases lt_or_le (u * n) (2 ^ 53) with hs | hs
  · rw [roundNat_eq_of_lt hs, hW, Nat.div_lt_iff_lt_mul (by positivity)]
    calc u * n ≤ (2 ^ 32 - 1) * n := Nat.mul_le_mul_right n (by omega)
    _ < n * 2 ^ 32 := by
        rw [Nat.sub_mul, one_mul, mul_comm]
        have h1 : 0 < 2 ^ 32 * n := by positivity
        have h2 : n ≤ 2 ^ 32 * n := Nat.le_mul_of_pos_left n (by positivity)
        omega
  · have hb := roundNat_le_half hs
    have hx0 : u * n ≠ 0 := by positivity
    have hlog : 2 ^ nlog2 (u * n) ≤ u * n := two_pow_nlog2_le hx0
    have h53 : 53 ≤ nlog2 (u * n) := le_nlog2 hx0 hs
    have hH : 2 ^ (nlog2 (u * n) - 53) ≤ u * n / 2 ^ 53 := by
      have hpd : 2 ^ (nlog2 (u * n) - 53) = 2 ^ nlog2 (u * n) / 2 ^ 53 :=
        (Nat.pow_div h53 (by norm_num)).symm
      rw [hpd]
      exact Nat.div_le_div_right hlog
    have hun : u * n ≤ n * 2 ^ 32 - n := by
      have h1 : u * n ≤ (2 ^ 32 - 1) * n := Nat.mul_le_mul_right n (by omega)
      have h2 : (2 ^ 32 - 1) * n = 2 ^ 32 * n - n := by
        rw [Nat.sub_mul, one_mul]
      have h3 : (2 : Nat) ^ 32 * n = n * 2 ^ 32 := mul_comm _ _
      omega
    have hdt : u * n / 2 ^ 53 < n := by
      have h1 : u * n / 2 ^ 53 ≤ n * 2 ^ 32 / 2 ^ 53 := by
        apply Nat.div_le_div_right
        have : n ≤ n * 2 ^ 32 := Nat.le_mul_of_pos_right n (by positivity)
        omega
      have h2 : n * 2 ^ 32 / 2 ^ 53 = n / 2 ^ 21 := by
        rw [show (2 : Nat) ^ 53 = 2 ^ 21 * 2 ^ 32 from by norm_num]
        exact Nat.mul_div_mul_right n (2 ^ 21) (by positivity)
      have h3 : n / 2 ^ 21 ≤ n / 2 := Nat.div_le_div_left (by norm_num) (by norm_num)
      have h4 : n / 2 < n := Nat.div_lt_self hn (by norm_num)
      omega
    have hMn : n ≤ n * 2 ^ 32 := Nat.le_mul_of_pos_right n (by positivity)
    rw [hW, Nat.div_lt_iff_lt_mul (by positivity)]
    set D := u * n / 2 ^ 53 with hD
    omega

theorem randIdx_fst_lt (a : Nat) {n : Nat} (hn : 0 < n) : (randIdx a n).1 < n := by
  unfold randIdx randStep
  exact roundNat_div_lt (mulberryOut_lt _) hn

/-! ## The seed hash: JavaScript float semantics vs the truncated recurrence -/

theorem toUInt32_congr {s : Int} {v : Nat}
    (hs : s % (W32 : Int) = (v : Int) % (W32 : Int)) (m : Nat) :
    toUInt32 (s * (m : Int)) = (v * m) % W32 := by
  unfold toUInt32
  have h1 : (s * (m : Int)) % (W32 : Int) = ((v : Int) * (m : Int)) % (W32 : Int) := by
    rw [Int.mul_emod, hs, ← Int.mul_emod]
  rw [h1]
  have h2 : ((v : Int) * (m : Int)) % (W32 : Int) = (((v * m) % W32 : Nat) : Int) := by
    push_cast
    ring_nf
  rw [h2, Int.toNat_natCast]

theorem seedToIntStep_toUInt32 (h : Int) (code : Nat)
    (hex : seedToIntStep h code =
      (if (toUInt32 h ^^^ code) < 2 ^ 31 then ((toUInt32 h ^^^ code : Nat) : Int)
        else ((toUInt32 h ^^^ code : Nat) : Int) - (W32 : Int)) * 16777619) :
    toUInt32 (seedToIntStep h code) = ((toUInt32 h ^^^ code) * 16777619) % W32 := by
  rw [hex]
  apply toUInt32_congr
  split_ifs with hv
  · rfl
  · have hW : ((W32 : Nat) : Int) = 4294967296 := by norm_num [W32]
    rw [hW]
    omega

theorem seedFold_flag_false (codes : List Nat) (h : Int) :
    (codes.foldl
      (fun st code =>
        let p := seedToIntStep st.1 code
        let u := toUInt32 st.1
        let v := u ^^^ code
        let s : Int := if v < 2 ^ 31 then (v : Int) else (v : Int) - (W32 : Int)
        (p, st.2 && (roundInt (s * 16777619) == s * 16777619)))
      (h, false)).2 = false := by
  induction codes generalizing h with
  | nil => rfl
  | cons c rest ih =>
    simp only [List.foldl_cons, Bool.false_and]
    exact ih _

theorem seedFold_flag_mono (codes : List Nat) :
    ∀ (h : Int) (b : Bool),
    (codes.foldl
      (fun st code =>
        let p := seedToIntStep st.1 code
        let u := toUInt32 st.1
        let v := u ^^^ code
        let s : Int := if v < 2 ^ 31 then (v : Int) else (v : Int) - (W32 : Int)
        (p, st.2 && (roundInt (s * 16777619) == s * 16777619)))
      (h, b)).2 = true → b = true := by
  induction codes with
  | nil => intro h b hb; exact hb
  | cons c rest ih =>
    intro h b hb
    rw [List.foldl_cons] at hb
    dsimp only at hb
    have hab := ih _ _ hb
    rw [Bool.and_eq_true] at hab
    exact hab.1

theorem seedFold_exact (codes : List Nat) :
    ∀ (h : Int),
    (codes.foldl
      (fun st code =>
        let p := seedToIntStep st.1 code
        let u := toUInt32 st.1
        let v := u ^^^ code
        let s : Int := if v < 2 ^ 31 then (v : Int) else (v : Int) - (W32 : Int)
        (p, st.2 && (roundInt (s * 16777619) == s * 16777619)))
      (h, true)).2 = true →
    toUInt32 (codes.foldl seedToIntStep h) =
      codes.foldl (fun a code => ((a ^^^ code) * 16777619) % W32) (toUInt32 h) := by
  induction codes with
  | nil => intro h _; rfl
  | cons c rest ih =>
    intro h hflag
    rw [List.foldl_cons] at hflag
    dsimp only at hflag
    have hchk : (roundInt ((if toUInt32 h ^^^ c < 2 ^ 31 then ((toUInt32 h ^^^ c : Nat) : Int)
        else ((toUInt32 h ^^^ c : Nat) : Int) - (W32 : Int)) * 16777619) ==
        (if toUInt32 h ^^^ c < 2 ^ 31 then ((toUInt32 h ^^^ c : Nat) : Int)
        else ((toUInt32 h ^^^ c : Nat) : Int) - (W32 : Int)) * 16777619) = true := by
      have hab := seedFold_flag_mono rest _ _ hflag
      rw [Bool.and_eq_true] at hab
      exact hab.2
    have heq : roundInt ((if toUInt32 h ^^^ c < 2 ^ 31 then ((toUInt32 h ^^^ c : Nat) : Int)
        else ((toUInt32 h ^^^ c : Nat) : Int) - (W32 : Int)) * 16777619) =
        (if toUInt32 h ^^^ c < 2 ^ 31 then ((toUInt32 h ^^^ c : Nat) : Int)
        else ((toUInt32 h ^^^ c : Nat) : Int) - (W32 : Int)) * 16777619 :=
      eq_of_beq hchk
    have hstep : seedToIntStep h c =
        (if (toUInt32 h ^^^ c) < 2 ^ 31 then ((toUInt32 h ^^^ c : Nat) : Int)
          else ((toUInt32 h ^^^ c : Nat) : Int) - (W32 : Int)) * 16777619 := by
      unfold seedToIntStep
      exact heq
    have hu := seedToIntStep_toUInt32 h c hstep
    have hflag2 : (rest.foldl
        (fun st code =>
          let p := seedToIntStep st.1 code
          let u := toUInt32 st.1
          let v := u ^^^ code
          let s : Int := if v < 2 ^ 31 then (v : Int) else (v : Int) - (W32 : Int)
          (p, st.2 && (roundInt (s * 16777619) == s * 16777619)))
        (seedToIntStep h c, true)).2 = true := by
      rw [Bool.true_and, hchk] at hflag
      exact hflag
    have hrec := ih (seedToIntStep h c) hflag2
    rw [hu] at hrec
    rw [List.foldl_cons, List.foldl_cons]
    exact hrec

/-- **C9** (counterexample): for the one-character seed `"b"` (code 98) the
value computed by `seedToInt` differs from the recurrence that truncates
`(h XOR code) * 16777619` to 32 bits at each step: the float product
`-2128831070 * 16777619 ≈ -2^55` is rounded to a multiple of 4, which
changes the low 32 bits. -/
theorem seedToInt_ne_fnvTrunc_at_98 : seedToInt [98] ≠ fnvTrunc [98] := by
  decide

/-- **C9** (amended): `seedToInt` equals the FNV-1a-style recurrence
`h ← (h XOR code) * 16777619` (with the final value reduced to a 32-bit
unsigned integer, and each step's 32-bit truncation happening implicitly
at the next XOR) exactly on those inputs where every intermediate
product is exactly representable as an IEEE-754 double; in general the
multiplication is performed in 64-bit floating point, so each step is
rounded to 53 significant bits rather than truncated to 32 bits. -/
theorem seedToInt_eq_fnvTrunc_of_exact (codes : List Nat)
    (hex : seedToIntExact codes = true) : seedToInt codes = fnvTrunc codes := by
  unfold seedToIntExact at hex
  unfold seedToInt fnvTrunc
  have h0 : toUInt32 2166136261 = 2166136261 := by decide
  have hm := seedFold_exact codes 2166136261 hex
  rw [h0] at hm
  exact hm

/-- Witness for C9's amended theorem: the seed `"a"` (code 97) satisfies
the exactness hypothesis (its product is divisible by 4), and there the
two computations agree. -/
theorem seedToInt_eq_fnvTrunc_of_exact_witness :
    seedToIntExact [97] = true ∧ seedToInt [97] = fnvTrunc [97] :=
  ⟨by decide, seedToInt_eq_fnvTrunc_of_exact [97] (by decide)⟩

/-- **C3**: `generatePerfectMaze` is a pure function of the seed string:
its result is determined by `seedToInt` of the seed alone (there is no
other input and no hidden state — the PRNG closure is created inside the
call, seeded only with the hash).  In particular two calls on the same
seed return equal wall sets. -/
theorem generatePerfectMaze_deterministic (s t : List Nat)
    (h : seedToInt s = seedToInt t) :
    generatePerfectMaze s = generatePerfectMaze t := by
  unfold generatePerfectMaze mazeFinal mazeInit
  rw [h]

/-- Witness for C3: applied to the seed `"b"` twice. -/
theorem generatePerfectMaze_deterministic_witness :
    generatePerfectMaze [98] = generatePerfectMaze [98] :=
  generatePerfectMaze_deterministic [98] [98] rfl

/-! ## Canonical edge keys -/

theorem edgeKey_comm (a b : Cell) : edgeKey a b = edgeKey b a := by
  rcases a with ⟨a1, a2⟩
  rcases b with ⟨b1, b2⟩
  unfold edgeKey
  dsimp only
  split_ifs with h1 h2 h2 <;>
    first
      | rfl
      | (exfalso; omega)
      | (have h3 : a1 = b1 ∧ a2 = b2 := by omega
         rw [h3.1, h3.2])

theorem edgeKey_or (a b : Cell) : edgeKey a b = (a, b) ∨ edgeKey a b = (b, a) := by
  unfold edgeKey
  split_ifs <;> [exact Or.inl rfl; exact Or.inr rfl]

theorem edgeKey_eq_iff {x y a b : Cell} :
    edgeKey x y = edgeKey a b ↔ (x = a ∧ y = b) ∨ (x = b ∧ y = a) := by
  constructor
  · intro h
    rcases edgeKey_or x y with hx | hx <;> rcases edgeKey_or a b with ha | ha <;>
      rw [hx, ha] at h <;>
      simp only [Prod.mk.injEq] at h <;>
      tauto
  · intro h
    rcases h with ⟨rfl, rfl⟩ | ⟨rfl, rfl⟩
    · rfl
    · exact edgeKey_comm x y

/-! ## Fisher–Yates is a permutation (C7) -/

theorem set_cons_perm (t : List α) :
    ∀ (k : Nat) (a b : α), t[k]? = some b →
    List.Perm (b :: t.set k a) (a :: t) := by
  induction t with
  | nil => intro k a b h; simp at h
  | cons c t2 ih =>
    intro k a b h
    cases k with
    | zero =>
      rw [List.getElem?_cons_zero] at h
      have hb : c = b := by injection h
      subst hb
      rw [List.set_cons_zero]
      exact List.Perm.swap a c t2
    | succ k2 =>
      rw [List.getElem?_cons_succ] at h
      rw [List.set_cons_succ]
      exact ((List.Perm.swap c b _).trans ((ih k2 a b h).cons c)).trans
        (List.Perm.swap a c t2)

theorem lswap_perm (l : List α) (i j : Nat) : List.Perm (lswap l i j) l := by
  induction l generalizing i j with
  | nil => unfold lswap; simp
  | cons a t ih =>
    unfold lswap
    cases i with
    | zero =>
      cases j with
      | zero =>
        simp
      | succ j2 =>
        cases hj : t[j2]? with
        | none =>
          simp [hj]
        | some y =>
          simp only [List.getElem?_cons_zero, List.getElem?_cons_succ, hj,
            List.set_cons_zero, List.set_cons_succ]
          exact set_cons_perm t j2 a y hj
    | succ i2 =>
      cases j with
      | zero =>
        cases hi : t[i2]? with
        | none =>
          simp [hi]
        | some x =>
          simp only [List.getElem?_cons_zero, List.getElem?_cons_succ, hi,
            List.set_cons_zero, List.set_cons_succ]
          exact set_cons_perm t i2 a x hi
      | succ j2 =>
        cases hi : t[i2]? with
        | none =>
          simp [hi]
        | some x =>
          cases hj : t[j2]? with
          | none =>
            simp [hi, hj]
          | some y =>
            simp only [List.getElem?_cons_succ, hi, hj, List.set_cons_succ]
            have hsub := ih i2 j2
            unfold lswap at hsub
            rw [hi, hj] at hsub
            exact hsub.cons a

theorem fyAux_perm : ∀ (i st : Nat) (l : List α), List.Perm (fyAux i st l) l := by
  intro i
  induction i with
  | zero => intro st l; exact List.Perm.refl l
  | succ i2 ih =>
    intro st l
    unfold fyAux
    exact (ih _ _).trans (lswap_perm _ _ _)

theorem fisherYates_perm (l : List α) (st : Nat) :
    List.Perm (fisherYates l st) l :=
  fyAux_perm _ _ _

/-- **C7**: `seededShuffle` returns a permutation of its input — the same
elements with the same multiplicities.  (The embedding is pure: the input
list value is untouched, the result is a new list; and reproducibility on
equal arguments is definitional.) -/
theorem seededShuffle_perm (l : List α) (codes : List Nat) :
    List.Perm (seededShuffle l codes) l :=
  fisherYates_perm _ _

/-! ## Reachability machinery for `graphConnected` -/

theorem estep_subset (E : Finset EdgeP) (S : Finset Cell) : S ⊆ estep E S :=
  Finset.subset_union_left

theorem mem_estep {E : Finset EdgeP} {S : Finset Cell} {q : Cell} :
    q ∈ estep E S ↔
      q ∈ S ∨ ∃ p ∈ S, q ∈ neighbors p.1 p.2 ∧ edgeKey p q ∈ E := by
  unfold estep
  simp only [Finset.mem_union, Finset.mem_biUnion, List.mem_toFinset,
    List.mem_filter, decide_eq_true_eq]

theorem estep_mono_S {E : Finset EdgeP} {S T : Finset Cell} (h : S ⊆ T) :
    estep E S ⊆ estep E T := by
  intro x hx
  rcases mem_estep.mp hx with hx | ⟨p, hp, hn, he⟩
  · exact mem_estep.mpr (Or.inl (h hx))
  · exact mem_estep.mpr (Or.inr ⟨p, h hp, hn, he⟩)

theorem estep_mono_E {E F : Finset EdgeP} (hEF : E ⊆ F) (S : Finset Cell) :
    estep E S ⊆ estep F S := by
  intro x hx
  rcases mem_estep.mp hx with hx | ⟨p, hp, hn, he⟩
  · exact mem_estep.mpr (Or.inl hx)
  · exact mem_estep.mpr (Or.inr ⟨p, hp, hn, hEF he⟩)

theorem creach_le_mono (E : Finset EdgeP) {m n : Nat} (h : m ≤ n) :
    creach E m ⊆ creach E n := by
  induction n with
  | zero =>
    have hm : m = 0 := Nat.le_zero.mp h
    rw [hm]
  | succ n ih =>
    rcases Nat.lt_or_ge m (n + 1) with hm | hm
    · exact (ih (by omega)).trans (estep_subset E (creach E n))
    · have : m = n + 1 := by omega
      rw [this]

theorem creach_mono_E {E F : Finset EdgeP} (h : E ⊆ F) (n : Nat) :
    creach E n ⊆ creach F n := by
  induction n with
  | zero => exact fun x hx => hx
  | succ n ih => exact (estep_mono_S ih).trans (estep_mono_E h (creach F n))

theorem origin_mem_cells : ((0 : Nat), (0 : Nat)) ∈ cellsFinset := by decide

theorem neighbors_mem_cells :
    ∀ p ∈ cellsFinset, ∀ q ∈ neighbors p.1 p.2, q ∈ cellsFinset := by decide

theorem cellsFinset_card : cellsFinset.card = 36 := by decide

theorem creach_subset_cells {E : Finset EdgeP} (n : Nat) :
    creach E n ⊆ cellsFinset := by
  induction n with
  | zero =>
    intro x hx
    have : x = ((0 : Nat), (0 : Nat)) := Finset.mem_singleton.mp hx
    rw [this]
    exact origin_mem_cells
  | succ n ih =>
    intro x hx
    rcases mem_estep.mp hx with hx | ⟨p, hp, hn, _⟩
    · exact ih hx
    · exact neighbors_mem_cells p (ih hp) x hn

theorem creach_stab_forward {E : Finset EdgeP} {k : Nat}
    (h : creach E k = creach E (k + 1)) :
    ∀ m, creach E (k + m) = creach E k := by
  intro m
  induction m with
  | zero => rfl
  | succ m ih =>
    have : k + (m + 1) = (k + m) + 1 := by omega
    rw [this]
    show estep E (creach E (k + m)) = creach E k
    rw [ih]
    exact h.symm

theorem mem_creach_36 {E : Finset EdgeP} {x : Cell} {n : Nat}
    (hx : x ∈ creach E n) : x ∈ creach E 36 := by
  by_cases hstab : ∃ k < 36, creach E k = creach E (k + 1)
  · obtain ⟨k, hk, heq⟩ := hstab
    rcases le_or_lt n 36 with hn | hn
    · exact creach_le_mono E hn hx
    · have h1 : creach E n = creach E k := by
        have := creach_stab_forward heq (n - k)
        rw [show k + (n - k) = n from by omega] at this
        exact this
      have h2 : creach E 36 = creach E k := by
        have := creach_stab_forward heq (36 - k)
        rw [show k + (36 - k) = 36 from by omega] at this
        exact this
      rw [h2]
      rw [h1] at hx
      exact hx
  · exfalso
    push_neg at hstab
    have hgrow : ∀ k, k ≤ 36 → k + 1 ≤ (creach E k).card := by
      intro k
      induction k with
      | zero =>
        intro _
        have : creach E 0 = {((0 : Nat), (0 : Nat))} := rfl
        rw [this, Finset.card_singleton]
      | succ k ih =>
        intro hk
        have hlt : (creach E k).card < (creach E (k + 1)).card := by
          apply Finset.card_lt_card
          exact ⟨creach_le_mono E (by omega), fun hsup =>
            hstab k (by omega) (Finset.Subset.antisymm (creach_le_mono E (by omega)) hsup)⟩
        have hik := ih (by omega)
        omega
    have h37 := hgrow 36 le_rfl
    have hle := Finset.card_le_card (creach_subset_cells (E := E) 36)
    rw [cellsFinset_card] at hle
    omega

theorem graphConnected_true_iff {walls : Finset EdgeP} :
    graphConnected walls = true ↔
      (creach (passagesFromWalls walls) 36).card = 36 := by
  unfold graphConnected
  exact beq_iff_eq

/-- Adding walls can only shrink the reachable set: if the larger wall set
is still connected, so is the smaller one. -/
theorem graphConnected_anti {W W2 : Finset EdgeP} (hsub : W ⊆ W2)
    (h : graphConnected W2 = true) : graphConnected W = true := by
  rw [graphConnected_true_iff] at h ⊢
  have hpass : passagesFromWalls W2 ⊆ passagesFromWalls W :=
    Finset.sdiff_subset_sdiff (Finset.Subset.refl _) hsub
  have hsubr : creach (passagesFromWalls W2) 36 ⊆ creach (passagesFromWalls W) 36 :=
    creach_mono_E hpass 36
  have h1 := Finset.card_le_card hsubr
  have h2 := Finset.card_le_card (creach_subset_cells (E := passagesFromWalls W) 36)
  rw [cellsFinset_card] at h2
  omega

/-! ## The wall-augmentation loop -/

theorem awLoop_connected (extra : Nat) :
    ∀ (l : List EdgeP) (w : Finset EdgeP) (added : Nat),
    graphConnected w = true → graphConnected (awLoop extra l w added).walls = true := by
  intro l
  induction l with
  | nil => intro w added h; exact h
  | cons e rest ih =>
    intro w added h
    rw [awLoop]
    dsimp only
    split_ifs with h1 h2
    · exact h
    · exact ih _ _ h2
    · exact ih _ _ h

theorem awLoop_subset (extra : Nat) :
    ∀ (l : List EdgeP) (w : Finset EdgeP) (added : Nat),
    w ⊆ (awLoop extra l w added).walls := by
  intro l
  induction l with
  | nil => intro w added; exact Finset.Subset.refl w
  | cons e rest ih =>
    intro w added
    rw [awLoop]
    dsimp only
    split_ifs with h1 h2
    · exact Finset.Subset.refl w
    · exact (Finset.subset_insert e w).trans (ih _ _)
    · exact ih _ _

theorem awLoop_card (extra : Nat) :
    ∀ (l : List EdgeP) (w : Finset EdgeP) (added : Nat),
    l.Nodup → (∀ e ∈ l, e ∉ w) →
    ((awLoop extra l w added).walls \ w).card + added = (awLoop extra l w added).added := by
  intro l
  induction l with
  | nil =>
    intro w added _ _
    simp [awLoop]
  | cons e rest ih =>
    intro w added hnd hout
    rw [awLoop]
    dsimp only
    split_ifs with h1 h2
    · simp
    · have hrest : ∀ x ∈ rest, x ∉ insert e w := by
        intro x hx
        rw [Finset.mem_insert]
        push_neg
        exact ⟨fun hxe => (List.nodup_cons.mp hnd).1 (hxe ▸ hx),
          hout x (List.mem_cons_of_mem e hx)⟩
      have hih := ih (insert e w) (added + 1) (List.nodup_cons.mp hnd).2 hrest
      have hin : insert e w ⊆ (awLoop extra rest (insert e w) (added + 1)).walls :=
        awLoop_subset extra rest _ _
      have hnw : e ∉ w := hout e (List.mem_cons_self e rest)
      have hsplit :
          (awLoop extra rest (insert e w) (added + 1)).walls \ w =
            insert e ((awLoop extra rest (insert e w) (added + 1)).walls \ insert e w) := by
        ext x
        simp only [Finset.mem_sdiff, Finset.mem_insert]
        constructor
        · intro ⟨hxw, hxnw⟩
          by_cases hxe : x = e
          · exact Or.inl hxe
          · exact Or.inr ⟨hxw, fun hc => hc.elim hxe hxnw⟩
        · intro hc
          rcases hc with rfl | ⟨hxw, hxn⟩
          · exact ⟨hin (Finset.mem_insert_self x w), hnw⟩
          · exact ⟨hxw, fun hw => hxn (Or.inr hw)⟩
      rw [hsplit, Finset.card_insert_of_not_mem (by
        intro hc
        exact (Finset.mem_sdiff.mp hc).2 (Finset.mem_insert_self e w))]
      omega
    · have hrest : ∀ x ∈ rest, x ∉ w := fun x hx => hout x (List.mem_cons_of_mem e hx)
      exact ih w added (List.nodup_cons.mp hnd).2 hrest

theorem awLoop_added_le (extra : Nat) :
    ∀ (l : List EdgeP) (w : Finset EdgeP) (added : Nat),
    added ≤ extra → (awLoop extra l w added).added ≤ extra := by
  intro l
  induction l with
  | nil => intro w added h; exact h
  | cons e rest ih =>
    intro w added h
    rw [awLoop]
    dsimp only
    split_ifs with h1 h2
    · exact h
    · exact ih _ _ (by omega)
    · exact ih _ _ h

theorem awLoop_exhausted (extra : Nat) :
    ∀ (l : List EdgeP) (w : Finset EdgeP) (added : Nat),
    (awLoop extra l w added).added < extra →
    ∀ e ∈ l, e ∈ (awLoop extra l w added).walls ∨
      graphConnected (insert e (awLoop extra l w added).walls) = false := by
  intro l
  induction l with
  | nil => intro w added _ e he; cases he
  | cons e0 rest ih =>
    intro w added hlt e he
    rw [awLoop] at hlt ⊢
    dsimp only at hlt ⊢
    split_ifs at hlt ⊢ with h1 h2
    · exfalso
      dsimp only at hlt
      omega
    · rcases List.mem_cons.mp he with rfl | hr
      · left
        exact awLoop_subset extra rest _ _ (Finset.mem_insert_self e w)
      · exact ih _ _ hlt e hr
    · rcases List.mem_cons.mp he with rfl | hr
      · right
        cases hb : graphConnected (insert e (awLoop extra rest w added).walls) with
        | false => rfl
        | true =>
          exfalso
          have hmono : insert e w ⊆ insert e (awLoop extra rest w added).walls :=
            Finset.insert_subset_insert e (awLoop_subset extra rest w added)
          exact h2 (graphConnected_anti hmono hb)
      · exact ih _ _ hlt e hr

theorem allInternalEdgesList_nodup : allInternalEdgesList.Nodup := by decide

theorem addExtraWalls_eq (walls : Finset EdgeP) (extra : Nat) (codes : List Nat) :
    addExtraWalls walls extra codes =
      awLoop extra
        (fisherYates (allInternalEdgesList.filter fun e => decide (e ∉ walls))
          (seedToInt codes ^^^ 0x1234abcd)) walls 0 :=
  rfl

theorem shuffled_passages_nodup (walls : Finset EdgeP) (st : Nat) :
    (fisherYates (allInternalEdgesList.filter fun e => decide (e ∉ walls)) st).Nodup :=
  ((fisherYates_perm _ _).nodup_iff).mpr (allInternalEdgesList_nodup.filter _)

theorem shuffled_passages_mem {walls : Finset EdgeP} {st : Nat} {e : EdgeP} :
    e ∈ fisherYates (allInternalEdgesList.filter fun e => decide (e ∉ walls)) st ↔
      e ∈ allInternalEdgesList ∧ e ∉ walls := by
  rw [(fisherYates_perm _ _).mem_iff, List.mem_filter, decide_eq_true_eq]

/-- A connected wall set's traversal reaches the whole grid. -/
theorem connected_reach_eq {walls : Finset EdgeP} (h : graphConnected walls = true) :
    creach (passagesFromWalls walls) 36 = cellsFinset := by
  rw [graphConnected_true_iff] at h
  apply Finset.eq_of_subset_of_card_le (creach_subset_cells 36)
  rw [cellsFinset_card, h]

/-- **C2**: for every input wall set whose passage graph is connected,
every extra count and every seed, the wall set returned by
`addExtraWalls` still has a connected passage graph: the traversal from
`(0,0)` over its passages reaches all `R·C = 36` cells. -/
theorem addExtraWalls_preserves_connectivity (walls : Finset EdgeP) (extra : Nat)
    (codes : List Nat) (h : graphConnected walls = true) :
    graphConnected (addExtraWalls walls extra codes).walls = true ∧
    creach (passagesFromWalls (addExtraWalls walls extra codes).walls) 36 = cellsFinset := by
  have hc : graphConnected (addExtraWalls walls extra codes).walls = true := by
    rw [addExtraWalls_eq]
    exact awLoop_connected _ _ _ _ h
  exact ⟨hc, connected_reach_eq hc⟩

/-- **C4**: `addExtraWalls` only grows the wall set — every input wall is
in the output — and the output has exactly `added` edges beyond the input. -/
theorem addExtraWalls_monotone (walls : Finset EdgeP) (extra : Nat) (codes : List Nat) :
    walls ⊆ (addExtraWalls walls extra codes).walls ∧
    ((addExtraWalls walls extra codes).walls \ walls).card =
      (addExtraWalls walls extra codes).added := by
  rw [addExtraWalls_eq]
  refine ⟨awLoop_subset _ _ _ _, ?_⟩
  have hcard := awLoop_card extra
    (fisherYates (allInternalEdgesList.filter fun e => decide (e ∉ walls))
      (seedToInt codes ^^^ 0x1234abcd)) walls 0
    (shuffled_passages_nodup walls _)
    (fun e he => (shuffled_passages_mem.mp he).2)
  omega

/-- **C5**: an `extra` request exceeding the number of closable passages is
not an error: `addExtraWalls` always returns with `added ≤ extra`, and when
`added < extra` the candidate list was exhausted — every remaining passage
of the result was rejected because closing it would disconnect the passage
graph. -/
theorem addExtraWalls_caps (walls : Finset EdgeP) (extra : Nat) (codes : List Nat) :
    (addExtraWalls walls extra codes).added ≤ extra ∧
    ((addExtraWalls walls extra codes).added < extra →
      ∀ e ∈ passagesFromWalls (addExtraWalls walls extra codes).walls,
        graphConnected (insert e (addExtraWalls walls extra codes).walls) = false) := by
  rw [addExtraWalls_eq]
  constructor
  · exact awLoop_added_le _ _ _ _ (Nat.zero_le _)
  · intro hlt e he
    have hemem := Finset.mem_sdiff.mp he
    have hworig : e ∉ walls := fun hc => hemem.2 (awLoop_subset _ _ _ _ hc)
    have hlist : e ∈ fisherYates (allInternalEdgesList.filter fun e => decide (e ∉ walls))
        (seedToInt codes ^^^ 0x1234abcd) :=
      shuffled_passages_mem.mpr ⟨List.mem_toFinset.mp hemem.1, hworig⟩
    rcases awLoop_exhausted extra _ walls 0 hlt e hlist with hin | hfalse
    · exact absurd hin hemem.2
    · exact hfalse

/-- Witness for C5, applied at concrete inputs (no wall set, `extra = 2`,
seed `"a"`). -/
theorem addExtraWalls_caps_witness :
    (addExtraWalls (∅ : Finset EdgeP) 2 [97]).added ≤ 2 :=
  (addExtraWalls_caps ∅ 2 [97]).1

/-! ## Target selection (C6) -/

/-- **C6**: the target selection returns at most `targetCount` cells; when
the pool of cells whose category equals the requested one has at most
`targetCount` members it returns exactly that whole pool; and every
returned cell belongs to the pool. -/
theorem selectTargets_spec (cells : List (Cell × CellInfo)) (targetCat : String)
    (targetCount : Nat) (codes : List Nat) :
    (selectTargets cells targetCat targetCount codes).length ≤ targetCount ∧
    (((cells.filter fun p => p.2.cat == targetCat).map Prod.fst).length ≤ targetCount →
      selectTargets cells targetCat targetCount codes =
        (cells.filter fun p => p.2.cat == targetCat).map Prod.fst) ∧
    ∀ q ∈ selectTargets cells targetCat targetCount codes,
      q ∈ (cells.filter fun p => p.2.cat == targetCat).map Prod.fst := by
  unfold selectTargets
  dsimp only
  split_ifs with h
  · exact ⟨h, fun _ => rfl, fun q hq => hq⟩
  · push_neg at h
    refine ⟨?_, fun hc => absurd hc (by omega), ?_⟩
    · rw [List.length_take]
      exact min_le_left _ _
    · intro q hq
      have hq2 := List.take_subset _ _ hq
      exact (seededShuffle_perm _ _).mem_iff.mp hq2

/-- Witness for C6, applied at a concrete pool. -/
theorem selectTargets_spec_witness :
    (selectTargets [(((0 : Nat), (0 : Nat)), ⟨"sol", "sustantivo"⟩),
      (((0 : Nat), (1 : Nat)), ⟨"azul", "adjetivo"⟩)] "sustantivo" 3 [97]).length ≤ 3 :=
  (selectTargets_spec _ _ _ _).1

/-! ## CSV parsing (C10) -/

theorem dropWhile_head_not {p : Char → Bool} :
    ∀ {l : List Char} {c0 : Char}, (l.dropWhile p).head? = some c0 → p c0 = false := by
  intro l
  induction l with
  | nil => intro c0 h; simp at h
  | cons a t ih =>
    intro c0 h
    by_cases hpa : p a
    · rw [List.dropWhile_cons_of_pos hpa] at h
      exact ih h
    · rw [List.dropWhile_cons_of_neg hpa] at h
      rw [List.head?_cons] at h
      have : a = c0 := by injection h
      rw [← this]
      exact Bool.eq_false_iff.mpr hpa

theorem dropWhile_getLast {p : Char → Bool} :
    ∀ {l : List Char}, l.dropWhile p ≠ [] → (l.dropWhile p).getLast? = l.getLast? := by
  intro l
  induction l with
  | nil => intro h; simp at h
  | cons a t ih =>
    intro h
    by_cases hpa : p a
    · rw [List.dropWhile_cons_of_pos hpa] at h ⊢
      cases ht : t with
      | nil =>
        rw [ht] at h
        simp at h
      | cons b t2 =>
        rw [← ht, ih (ht ▸ h), ht]
        rfl
    · rw [List.dropWhile_cons_of_neg hpa]

theorem trimL_head_not {l : List Char} {c0 : Char}
    (h : (trimL l).head? = some c0) : isWSChar c0 = false := by
  unfold trimL at h
  rw [List.head?_reverse] at h
  have hne : (l.dropWhile isWSChar).reverse.dropWhile isWSChar ≠ [] := by
    intro hc
    rw [hc] at h
    simp at h
  rw [dropWhile_getLast hne, List.getLast?_reverse] at h
  exact dropWhile_head_not h

theorem trimL_getLast_not {l : List Char} {c0 : Char}
    (h : (trimL l).getLast? = some c0) : isWSChar c0 = false := by
  unfold trimL at h
  rw [List.getLast?_reverse] at h
  exact dropWhile_head_not h

theorem lower_of_upper_range :
    ∀ n < 91, 65 ≤ n → (Char.ofNat (n + 32)).toNat = n + 32 ∧
      isWSChar (Char.ofNat (n + 32)) = false := by decide

theorem jsToLowerChar_not_upper (c : Char) :
    ¬(65 ≤ (jsToLowerChar c).toNat ∧ (jsToLowerChar c).toNat ≤ 90) := by
  unfold jsToLowerChar
  split_ifs with hc
  · rw [(lower_of_upper_range c.toNat (by omega) hc.1).1]
    omega
  · omega

theorem jsToLowerChar_ws (c : Char) (h : isWSChar c = false) :
    isWSChar (jsToLowerChar c) = false := by
  unfold jsToLowerChar
  split_ifs with hc
  · exact (lower_of_upper_range c.toNat (by omega) hc.1).2
  · exact h

/-- **C10**: every tuple returned by `parseCSV` has its row and column in
`[0, 6)`, and its category is a trimmed (no whitespace at either end),
lowercased (no ASCII uppercase letter anywhere) string; malformed lines
produce no tuple rather than an error (the parser is total). -/
theorem parseCSV_spec (text : List Char) :
    ∀ t ∈ parseCSV text,
      0 ≤ t.1 ∧ t.1 < 6 ∧ 0 ≤ t.2.1 ∧ t.2.1 < 6 ∧
      (∀ c0, t.2.2.2.head? = some c0 → isWSChar c0 = false) ∧
      (∀ c0, t.2.2.2.getLast? = some c0 → isWSChar c0 = false) ∧
      (∀ c0 ∈ t.2.2.2, ¬(65 ≤ c0.toNat ∧ c0.toNat ≤ 90)) := by
  intro t ht
  unfold parseCSV at ht
  obtain ⟨line, _, heq⟩ := List.mem_filterMap.mp ht
  dsimp only at heq
  split_ifs at heq with hlen
  rcases hr : jsParseInt ((splitSep ',' line).getD 0 []) with _ | r <;> rw [hr] at heq
  · exact absurd heq (by simp)
  · rcases hc : jsParseInt ((splitSep ',' line).getD 1 []) with _ | c <;> rw [hc] at heq
    · exact absurd heq (by simp)
    · dsimp only at heq
      split_ifs at heq with hb
      have hinj : (r, c,
          trimL (List.intercalate [','] (((splitSep ',' line).drop 2).dropLast)),
          (trimL ((splitSep ',' line).getD ((splitSep ',' line).length - 1) [])).map
            jsToLowerChar) = t := by
        injection heq
      push_neg at hb
      rw [← hinj]
      refine ⟨hb.1, hb.2.1, hb.2.2.1, hb.2.2.2, ?_, ?_, ?_⟩
      · intro c0 hc0
        rw [List.head?_map] at hc0
        rcases hh : (trimL ((splitSep ',' line).getD ((splitSep ',' line).length - 1)
            [])).head? with _ | c1 <;> rw [hh] at hc0
        · exact absurd hc0 (by simp)
        · have : jsToLowerChar c1 = c0 := by injection hc0
          rw [← this]
          exact jsToLowerChar_ws c1 (trimL_head_not hh)
      · intro c0 hc0
        rw [List.getLast?_map] at hc0
        rcases hh : (trimL ((splitSep ',' line).getD ((splitSep ',' line).length - 1)
            [])).getLast? with _ | c1 <;> rw [hh] at hc0
        · exact absurd hc0 (by simp)
        · have : jsToLowerChar c1 = c0 := by injection hc0
          rw [← this]
          exact jsToLowerChar_ws c1 (trimL_getLast_not hh)
      · intro c0 hc0
        obtain ⟨c1, _, hlc⟩ := List.mem_map.mp hc0
        rw [← hlc]
        exact jsToLowerChar_not_upper c1

/-! ## The carving loop: invariants -/

theorem neighbors_edge :
    ∀ r < 6, ∀ c < 6, ∀ q ∈ neighbors r c, edgeKey (r, c) q ∈ allInternalEdges := by
  decide

theorem neighbors_grid :
    ∀ r < 6, ∀ c < 6, ∀ q ∈ neighbors r c, q.1 < 6 ∧ q.2 < 6 ∧ q ≠ (r, c) := by
  decide

theorem neighbors_down : ∀ r < 5, ∀ c < 6, ((r + 1 : Nat), c) ∈ neighbors r c := by
  decide

theorem neighbors_right : ∀ r < 6, ∀ c < 5, (r, (c + 1 : Nat)) ∈ neighbors r c := by
  decide

theorem allEdges_endpoints :
    ∀ e ∈ allInternalEdgesList,
      e.2 ∈ neighbors e.1.1 e.1.2 ∧ e.1 ∈ neighbors e.2.1 e.2.2 := by
  decide

theorem allInternalEdges_card : allInternalEdges.card = 60 := by decide

/-- Both endpoints of a grid edge are grid neighbors of each other. -/
theorem mem_allEdges_neighbors {a b : Cell} (h : edgeKey a b ∈ allInternalEdges) :
    b ∈ neighbors a.1 a.2 := by
  have hl := List.mem_toFinset.mp h
  have hf := allEdges_endpoints _ hl
  rcases edgeKey_or a b with he | he <;> rw [he] at hf
  · exact hf.1
  · exact hf.2

theorem getD_mem {l : List α} {i : Nat} (h : i < l.length) (d : α) :
    l.getD i d ∈ l := by
  induction l generalizing i with
  | nil => simp at h
  | cons a t ih =>
    cases i with
    | zero => exact List.mem_cons_self a t
    | succ i2 =>
      rw [List.length_cons] at h
      exact List.mem_cons_of_mem a (ih (by omega) )

theorem nodup_grid_length_le {l : List Cell} (hnd : l.Nodup)
    (hg : ∀ x ∈ l, x.1 < 6 ∧ x.2 < 6) : l.length ≤ 36 := by
  have hsub : l.toFinset ⊆ cellsFinset := by
    intro x hx
    have := hg x (List.mem_toFinset.mp hx)
    rcases x with ⟨r, c⟩
    simp only [cellsFinset, Finset.mem_product, Finset.mem_range]
    exact this
  have := Finset.card_le_card hsub
  rw [cellsFinset_card, List.toFinset_card_of_nodup hnd] at this
  exact this

/-! ### Structure lemmas for `GrowsFrom` -/

theorem endVerts_cons (vs : List Cell) (q : Cell × Cell) (ord : List (Cell × Cell)) :
    endVerts vs (q :: ord) = endVerts (q.2 :: vs) ord := by
  unfold endVerts
  simp only [List.map_cons, List.reverse_cons, List.append_assoc, List.singleton_append]

theorem endVerts_append_singleton (vs : List Cell) (ord : List (Cell × Cell))
    (q : Cell × Cell) : endVerts vs (ord ++ [q]) = q.2 :: endVerts vs ord := by
  unfold endVerts
  simp only [List.map_append, List.map_cons, List.map_nil, List.reverse_append,
    List.reverse_cons, List.reverse_nil, List.nil_append, List.cons_append]

theorem growsFrom_append (vs : List Cell) (ord : List (Cell × Cell)) (a b : Cell) :
    GrowsFrom vs ord → a ∈ endVerts vs ord → b ∉ endVerts vs ord →
    GrowsFrom vs (ord ++ [(a, b)]) := by
  induction ord generalizing vs with
  | nil =>
    intro _ ha hb
    exact ⟨ha, hb, trivial⟩
  | cons q rest ih =>
    intro hg ha hb
    rw [endVerts_cons] at ha hb
    exact ⟨hg.1, hg.2.1, ih (q.2 :: vs) hg.2.2 ha hb⟩

theorem growsFrom_snoc (vs : List Cell) (ord : List (Cell × Cell)) (q : Cell × Cell) :
    GrowsFrom vs (ord ++ [q]) →
    GrowsFrom vs ord ∧ q.1 ∈ endVerts vs ord ∧ q.2 ∉ endVerts vs ord := by
  induction ord generalizing vs with
  | nil =>
    intro h
    exact ⟨trivial, h.1, h.2.1⟩
  | cons r rest ih =>
    intro h
    have hrec := ih (r.2 :: vs) h.2.2
    rw [endVerts_cons]
    exact ⟨⟨h.1, h.2.1, hrec.1⟩, hrec.2.1, hrec.2.2⟩

theorem growsFrom_nodup (vs : List Cell) (ord : List (Cell × Cell)) :
    GrowsFrom vs ord → vs.Nodup → (endVerts vs ord).Nodup := by
  induction ord generalizing vs with
  | nil => intro _ h; exact h
  | cons q rest ih =>
    intro hg hnd
    rw [endVerts_cons]
    exact ih (q.2 :: vs) hg.2.2 (List.nodup_cons.mpr ⟨hg.2.1, hnd⟩)

theorem growsFrom_comp (vs : List Cell) (ord : List (Cell × Cell)) :
    GrowsFrom vs ord →
    ∀ r ∈ ord, r.1 ∈ endVerts vs ord ∧ r.2 ∈ endVerts vs ord := by
  induction ord generalizing vs with
  | nil => intro _ r hr; cases hr
  | cons q rest ih =>
    intro hg r hr
    rw [endVerts_cons]
    rcases List.mem_cons.mp hr with rfl | hr2
    · constructor
      · have : r.1 ∈ r.2 :: vs := List.mem_cons_of_mem _ hg.1
        exact List.mem_append_right _ this
      · exact List.mem_append_right _ (List.mem_cons_self _ _)
    · exact ih (q.2 :: vs) hg.2.2 r hr2

theorem growsFrom_carved_nodup (ord : List (Cell × Cell)) (vs : List Cell) :
    GrowsFrom vs ord → (carvedOf ord).Nodup := by
  induction ord using List.reverseRecOn with
  | nil => intro _; exact List.nodup_nil
  | append_singleton ord q ih =>
    intro hg
    obtain ⟨hg0, _, hq2⟩ := growsFrom_snoc vs ord q hg
    unfold carvedOf
    rw [List.map_append, List.map_cons, List.map_nil]
    rw [List.nodup_append]
    refine ⟨ih hg0, List.nodup_singleton _, ?_⟩
    intro x hx hx1
    have hxq : x = edgeKey q.1 q.2 := by
      rcases List.mem_cons.mp hx1 with h | h
      · exact h
      · cases h
    obtain ⟨r, hr, hre⟩ := List.mem_map.mp hx
    rw [hxq] at hre
    have hcomp := growsFrom_comp vs ord hg0 r hr
    rcases edgeKey_eq_iff.mp hre with ⟨h1, h2⟩ | ⟨h1, h2⟩
    · exact hq2 (h2 ▸ hcomp.2)
    · exact hq2 (h1 ▸ hcomp.1)

/-! ## The carving loop: invariant preservation -/

theorem mazeInv_init (codes : List Nat) : MazeInv (mazeInit codes) := by
  refine ⟨?_, ?_, ?_, ?_, ?_, ?_⟩
  · intro x hx
    exact hx
  · exact List.nodup_singleton _
  · exact List.nodup_singleton _
  · intro x hx
    have : x = ((0 : Nat), (0 : Nat)) := by
      rcases List.mem_singleton.mp hx with h
      exact h
    rw [this]
    exact ⟨by norm_num, by norm_num⟩
  · intro v hv hnv
    exfalso
    exact hnv (List.mem_singleton.mp hv ▸ List.mem_singleton_self _)
  · exact ⟨[], rfl, rfl, trivial, fun q hq => absurd hq (List.not_mem_nil q)⟩

theorem mazeStep_pop (cv : List EdgeP) (vis : List Cell) (cur : Cell)
    (rest : List Cell) (g : Nat)
    (hu : ((neighbors cur.1 cur.2).filter fun q => decide (q ∉ vis)).length = 0) :
    mazeStep ⟨cv, vis, cur :: rest, g⟩ = ⟨cv, vis, rest, g⟩ := by
  unfold mazeStep
  dsimp only
  rw [if_pos hu]

theorem mazeStep_push (cv : List EdgeP) (vis : List Cell) (cur : Cell)
    (rest : List Cell) (g : Nat)
    (hu : ¬ ((neighbors cur.1 cur.2).filter fun q => decide (q ∉ vis)).length = 0) :
    mazeStep ⟨cv, vis, cur :: rest, g⟩ =
      ⟨cv ++ [edgeKey cur (((neighbors cur.1 cur.2).filter fun q => decide (q ∉ vis)).getD
          (randIdx g ((neighbors cur.1 cur.2).filter fun q => decide (q ∉ vis)).length).1
          ((0 : Nat), (0 : Nat)))],
        (((neighbors cur.1 cur.2).filter fun q => decide (q ∉ vis)).getD
          (randIdx g ((neighbors cur.1 cur.2).filter fun q => decide (q ∉ vis)).length).1
          ((0 : Nat), (0 : Nat))) :: vis,
        (((neighbors cur.1 cur.2).filter fun q => decide (q ∉ vis)).getD
          (randIdx g ((neighbors cur.1 cur.2).filter fun q => decide (q ∉ vis)).length).1
          ((0 : Nat), (0 : Nat))) :: cur :: rest,
        (randIdx g ((neighbors cur.1 cur.2).filter fun q => decide (q ∉ vis)).length).2⟩ := by
  unfold mazeStep
  dsimp only
  rw [if_neg hu]

theorem mazeInv_step (st : MazeState) (h : MazeInv st) :
    MazeInv (mazeStep st) ∧
      (st.stack ≠ [] → mazeMeasure (mazeStep st) < mazeMeasure st) := by
  obtain ⟨hsub, hsnd, hvnd, hvg, hcl, hghost⟩ := h
  obtain ⟨ord, hcarv, hvis, hgrow, hedges⟩ := hghost
  obtain ⟨cv, vis, stk, g⟩ := st
  dsimp only at hsub hsnd hvnd hvg hcl hcarv hvis ⊢
  cases stk with
  | nil =>
    refine ⟨⟨hsub, hsnd, hvnd, hvg, hcl, ord, hcarv, hvis, hgrow, hedges⟩, ?_⟩
    intro hne
    exact absurd rfl hne
  | cons cur rest =>
    by_cases hu : ((neighbors cur.1 cur.2).filter fun q => decide (q ∉ vis)).length = 0
    · rw [mazeStep_pop cv vis cur rest g hu]
      constructor
      · refine ⟨?_, (List.nodup_cons.mp hsnd).2, hvnd, hvg, ?_,
          ord, hcarv, hvis, hgrow, hedges⟩
        · intro x hx
          exact hsub x (List.mem_cons_of_mem _ hx)
        · intro v hv hnv q hq
          by_cases hvc : v = cur
          · subst hvc
            by_cases hq2 : q ∈ vis
            · exact hq2
            · exfalso
              have hmem : q ∈ (neighbors v.1 v.2).filter fun q => decide (q ∉ vis) :=
                List.mem_filter.mpr ⟨hq, decide_eq_true hq2⟩
              rw [List.length_eq_zero.mp hu] at hmem
              cases hmem
          · refine hcl v hv ?_ q hq
            intro hc
            rcases List.mem_cons.mp hc with h | h
            · exact hvc h
            · exact hnv h
      · intro _
        unfold mazeMeasure
        dsimp only
        rw [List.length_cons]
        omega
    · rw [mazeStep_push cv vis cur rest g hu]
      have hlen : 0 < ((neighbors cur.1 cur.2).filter fun q => decide (q ∉ vis)).length :=
        Nat.pos_of_ne_zero hu
      have hidx := randIdx_fst_lt g hlen
      set nc := ((neighbors cur.1 cur.2).filter fun q => decide (q ∉ vis)).getD
        (randIdx g ((neighbors cur.1 cur.2).filter fun q => decide (q ∉ vis)).length).1
        ((0 : Nat), (0 : Nat)) with hncdef
      have hncmem : nc ∈ (neighbors cur.1 cur.2).filter fun q => decide (q ∉ vis) :=
        getD_mem hidx _
      have hncf := List.mem_filter.mp hncmem
      have hncn : nc ∈ neighbors cur.1 cur.2 := hncf.1
      have hncv : nc ∉ vis := of_decide_eq_true hncf.2
      have hcur : cur ∈ vis := hsub cur (List.mem_cons_self _ _)
      have hcurg := hvg cur hcur
      have hedge0 := neighbors_edge cur.1 hcurg.1 cur.2 hcurg.2 nc hncn
      have hedge : edgeKey cur nc ∈ allInternalEdges := by
        rwa [Prod.mk.eta] at hedge0
      have hncg := neighbors_grid cur.1 hcurg.1 cur.2 hcurg.2 nc hncn
      have hnccur : nc ≠ cur := by
        rw [← Prod.mk.eta (p := cur)]
        exact hncg.2.2
      have hvnd2 : (nc :: vis).Nodup := List.nodup_cons.mpr ⟨hncv, hvnd⟩
      have hvg2 : ∀ x ∈ nc :: vis, x.1 < 6 ∧ x.2 < 6 := by
        intro x hx
        rcases List.mem_cons.mp hx with rfl | hx2
        · exact ⟨hncg.1, hncg.2.1⟩
        · exact hvg x hx2
      have hle := nodup_grid_length_le hvnd2 hvg2
      constructor
      · refine ⟨?_, ?_, hvnd2, hvg2, ?_, ?_⟩
        · intro x hx
          rcases List.mem_cons.mp hx with rfl | hx2
          · exact List.mem_cons_self _ _
          · exact List.mem_cons_of_mem _ (hsub x hx2)
        · refine List.nodup_cons.mpr ⟨?_, hsnd⟩
          intro hc
          exact hncv (hsub nc hc)
        · intro v hv hnv q hq
          have hvv : v ∈ vis := by
            rcases List.mem_cons.mp hv with rfl | h2
            · exact absurd (List.mem_cons_self _ _) hnv
            · exact h2
          have hvns : v ∉ cur :: rest := fun hc =>
            hnv (List.mem_cons_of_mem _ hc)
          exact List.mem_cons_of_mem _ (hcl v hvv hvns q hq)
        · refine ⟨ord ++ [(cur, nc)], ?_, ?_, ?_, ?_⟩
          · unfold carvedOf
            rw [List.map_append, hcarv]
            rfl
          · rw [endVerts_append_singleton, hvis]
          · have hcur2 : cur ∈ endVerts [((0 : Nat), (0 : Nat))] ord := by
              rw [← hvis]; exact hcur
            have hncv2 : nc ∉ endVerts [((0 : Nat), (0 : Nat))] ord := by
              rw [← hvis]; exact hncv
            exact growsFrom_append _ ord cur nc hgrow hcur2 hncv2
          · intro q hq
            rcases List.mem_append.mp hq with h2 | h2
            · exact hedges q h2
            · rw [List.mem_singleton.mp h2]
              exact ⟨hedge, Ne.symm hnccur⟩
      · intro _
        unfold mazeMeasure
        dsimp only
        rw [List.length_cons] at hle ⊢
        rw [List.length_cons, List.length_cons]
        omega

/-- Loop lemma: with enough fuel, the carving loop drains the stack and
preserves the invariant. -/
theorem mazeLoop_end (fuel : Nat) :
    ∀ st : MazeState, MazeInv st → mazeMeasure st < fuel →
    (mazeLoop fuel st).stack = [] ∧ MazeInv (mazeLoop fuel st) := by
  induction fuel with
  | zero => intro st _ hm; omega
  | succ f ih =>
    intro st hinv hm
    rw [mazeLoop]
    by_cases hs : st.stack.isEmpty
    · rw [if_pos hs]
      exact ⟨List.isEmpty_iff.mp hs, hinv⟩
    · rw [if_neg hs]
      have hne : st.stack ≠ [] := by
        intro hc
        rw [hc] at hs
        exact hs rfl
      obtain ⟨hinv2, hdec⟩ := mazeInv_step st hinv
      exact ih (mazeStep st) hinv2 (by have := hdec hne; omega)

theorem mazeFinal_spec (codes : List Nat) :
    (mazeFinal codes).stack = [] ∧ MazeInv (mazeFinal codes) := by
  apply mazeLoop_end 100 (mazeInit codes) (mazeInv_init codes)
  show 2 * (36 - 1) + 1 < 100
  norm_num

/-- When the stack has drained, the visited set is neighbor-closed and
contains the origin, so it contains every cell of the connected grid. -/
theorem visited_all {st : MazeState} (hinv : MazeInv st) (hstack : st.stack = []) :
    ∀ r < 6, ∀ c < 6, ((r : Nat), (c : Nat)) ∈ st.visited := by
  obtain ⟨ord, _, hvis, _, _⟩ := hinv.ghost
  have horig : ((0 : Nat), (0 : Nat)) ∈ st.visited := by
    rw [hvis]
    exact List.mem_append_right _ (List.mem_singleton_self _)
  have hclosed : ∀ v ∈ st.visited, ∀ q ∈ neighbors v.1 v.2, q ∈ st.visited := by
    intro v hv q hq
    refine hinv.closed v hv ?_ q hq
    rw [hstack]
    exact List.not_mem_nil v
  have hcol : ∀ r, r < 6 → ((r : Nat), (0 : Nat)) ∈ st.visited := by
    intro r
    induction r with
    | zero => intro _; exact horig
    | succ r2 ih =>
      intro hr
      exact hclosed (r2, 0) (ih (by omega)) (r2 + 1, 0)
        (neighbors_down r2 (by omega) 0 (by norm_num))
  intro r hr c
  induction c with
  | zero => intro _; exact hcol r hr
  | succ c2 ih =>
    intro hc
    exact hclosed (r, c2) (ih (by omega)) (r, c2 + 1)
      (neighbors_right r hr c2 (by omega))

theorem mazeFinal_visited_all (codes : List Nat) :
    ∀ r < 6, ∀ c < 6, ((r : Nat), (c : Nat)) ∈ (mazeFinal codes).visited :=
  visited_all (mazeFinal_spec codes).2 (mazeFinal_spec codes).1

theorem mazeFinal_visited_length (codes : List Nat) :
    (mazeFinal codes).visited.length = 36 := by
  have hinv := (mazeFinal_spec codes).2
  have hall := mazeFinal_visited_all codes
  have hsub : cellsFinset ⊆ (mazeFinal codes).visited.toFinset := by
    intro x hx
    rcases x with ⟨r, c⟩
    simp only [cellsFinset, Finset.mem_product, Finset.mem_range] at hx
    exact List.mem_toFinset.mpr (hall r hx.1 c hx.2)
  have hsup : (mazeFinal codes).visited.toFinset ⊆ cellsFinset := by
    intro x hx
    have hg := hinv.visGrid x (List.mem_toFinset.mp hx)
    rcases x with ⟨r, c⟩
    simp only [cellsFinset, Finset.mem_product, Finset.mem_range]
    exact hg
  have hcard := List.toFinset_card_of_nodup hinv.visNodup
  rw [Finset.Subset.antisymm hsup hsub, cellsFinset_card] at hcard
  omega

/-- **C8**: for every seed the carving loop terminates — the stack is
drained after the (fuel-bounded, but never exhausted) `while` loop — and
at termination every cell of the 6×6 grid has been visited, each cell
having been added to the visited log exactly once: the log has no
duplicates and contains all 36 cells, hence has length exactly 36. -/
theorem maze_loop_terminates (codes : List Nat) :
    (mazeFinal codes).stack = [] ∧
    (mazeFinal codes).visited.Nodup ∧
    (∀ r < 6, ∀ c < 6, ((r : Nat), (c : Nat)) ∈ (mazeFinal codes).visited) ∧
    (mazeFinal codes).visited.length = 36 :=
  ⟨(mazeFinal_spec codes).1, (mazeFinal_spec codes).2.visNodup,
    mazeFinal_visited_all codes, mazeFinal_visited_length codes⟩

/-! ## The maze is a spanning tree -/

theorem growsFrom_reach (ord : List (Cell × Cell)) :
    GrowsFrom [((0 : Nat), (0 : Nat))] ord →
    (∀ q ∈ ord, edgeKey q.1 q.2 ∈ allInternalEdges) →
    ∀ v ∈ endVerts [((0 : Nat), (0 : Nat))] ord,
      ∃ n, v ∈ creach (carvedOf ord).toFinset n := by
  induction ord using List.reverseRecOn with
  | nil =>
    intro _ _ v hv
    have hv0 : v = ((0 : Nat), (0 : Nat)) := by
      unfold endVerts at hv
      simp only [List.map_nil, List.reverse_nil, List.nil_append] at hv
      exact List.mem_singleton.mp hv
    exact ⟨0, by rw [hv0]; exact Finset.mem_singleton_self _⟩
  | append_singleton ord q ih =>
    intro hg hed v hv
    obtain ⟨hg0, hq1, hq2⟩ := growsFrom_snoc _ ord q hg
    have hed0 : ∀ r ∈ ord, edgeKey r.1 r.2 ∈ allInternalEdges := fun r hr =>
      hed r (List.mem_append_left _ hr)
    have hEsub : (carvedOf ord).toFinset ⊆ (carvedOf (ord ++ [q])).toFinset := by
      intro e he
      unfold carvedOf at he ⊢
      rw [List.mem_toFinset] at he ⊢
      rw [List.map_append]
      exact List.mem_append_left _ he
    have hqE : edgeKey q.1 q.2 ∈ (carvedOf (ord ++ [q])).toFinset := by
      unfold carvedOf
      rw [List.mem_toFinset, List.map_append]
      refine List.mem_append_right _ ?_
      simp only [List.map_cons, List.map_nil]
      exact List.mem_singleton_self _
    rw [endVerts_append_singleton] at hv
    rcases List.mem_cons.mp hv with rfl | hv2
    · obtain ⟨n, hn⟩ := ih hg0 hed0 q.1 hq1
      refine ⟨n + 1, ?_⟩
      apply mem_estep.mpr
      right
      refine ⟨q.1, creach_mono_E hEsub n hn, ?_, hqE⟩
      exact mem_allEdges_neighbors (hed q (List.mem_append_right _ (List.mem_singleton_self _)))
    · obtain ⟨n, hn⟩ := ih hg0 hed0 v hv2
      exact ⟨n, creach_mono_E hEsub n hn⟩

theorem maze_carved_sub (codes : List Nat) :
    (mazeFinal codes).carved.toFinset ⊆ allInternalEdges := by
  obtain ⟨ord, hcarv, _, _, hedges⟩ := (mazeFinal_spec codes).2.ghost
  intro e he
  rw [hcarv] at he
  obtain ⟨r, hr, hre⟩ := List.mem_map.mp (List.mem_toFinset.mp he)
  rw [← hre]
  exact (hedges r hr).1

/-- The passages of the generated maze are exactly the carved edges. -/
theorem maze_passages (codes : List Nat) :
    passagesFromWalls (generatePerfectMaze codes) = (mazeFinal codes).carved.toFinset := by
  unfold generatePerfectMaze passagesFromWalls
  rw [Finset.sdiff_sdiff_self_left]
  exact Finset.inter_eq_right.mpr (maze_carved_sub codes)

theorem maze_carved_card (codes : List Nat) :
    (mazeFinal codes).carved.toFinset.card = 35 := by
  obtain ⟨ord, hcarv, hvis, hgrow, _⟩ := (mazeFinal_spec codes).2.ghost
  have hnd : (carvedOf ord).Nodup := growsFrom_carved_nodup ord _ hgrow
  have hlenv := mazeFinal_visited_length codes
  rw [hvis] at hlenv
  unfold endVerts at hlenv
  rw [List.length_append, List.length_reverse, List.length_map] at hlenv
  have hordlen : ord.length = 35 := by
    rw [List.length_singleton] at hlenv
    omega
  rw [hcarv, List.toFinset_card_of_nodup hnd]
  unfold carvedOf
  rw [List.length_map, hordlen]

/-- Shared helper: the generated maze's passage graph is connected (the
reachability check of the source returns `true` on it). -/
theorem connected_card_of_all (E : Finset EdgeP)
    (hall2 : ∀ x ∈ cellsFinset, ∃ n, x ∈ creach E n) : (creach E 36).card = 36 := by
  have hcells : cellsFinset ⊆ creach E 36 := by
    intro x hx
    obtain ⟨n, hn⟩ := hall2 x hx
    exact mem_creach_36 hn
  have h1 := Finset.card_le_card hcells
  have h2 := Finset.card_le_card (creach_subset_cells (E := E) 36)
  rw [cellsFinset_card] at h1 h2
  omega

theorem maze_walls_connected (codes : List Nat) :
    graphConnected (generatePerfectMaze codes) = true := by
  obtain ⟨ord, hcarv, hvis, hgrow, hedges⟩ := (mazeFinal_spec codes).2.ghost
  rw [graphConnected_true_iff, maze_passages codes]
  apply connected_card_of_all
  intro x hx
  rcases x with ⟨r, c⟩
  simp only [cellsFinset, Finset.mem_product, Finset.mem_range] at hx
  have hxv : ((r : Nat), (c : Nat)) ∈ (mazeFinal codes).visited :=
    mazeFinal_visited_all codes r hx.1 c hx.2
  rw [hvis] at hxv
  obtain ⟨n, hn⟩ := growsFrom_reach ord hgrow (fun q hq => (hedges q hq).1) _ hxv
  rw [← hcarv] at hn
  exact ⟨n, hn⟩

/-! ## Acyclicity: adding a pendant edge keeps a graph acyclic -/

/-- Adding a single edge `p — v` to an acyclic graph in which `v` was
isolated keeps the graph acyclic: a cycle avoiding `v` lives in the old
graph, and a cycle through `v` would need two distinct edges at `v`,
while only `p — v` exists. -/
theorem isAcyclic_addLeaf {V : Type} [DecidableEq V] (G G2 : SimpleGraph V) (p v : V)
    (hadj : ∀ x y, G2.Adj x y ↔ G.Adj x y ∨ (x = p ∧ y = v) ∨ (x = v ∧ y = p))
    (hfresh : ∀ x, ¬ G.Adj v x) (hpv : p ≠ v) (hG : G.IsAcyclic) : G2.IsAcyclic := by
  intro u c hc
  by_cases hv : v ∈ c.support
  · have hc2 : (c.rotate hv).IsCycle := hc.rotate hv
    have hlen3 : 3 ≤ (c.rotate hv).length := hc2.three_le_length
    obtain ⟨b, hab, q, hq⟩ := SimpleGraph.Walk.not_nil_iff.mp hc2.not_nil
    have hb : b = p := by
      rcases (hadj v b).mp hab with h | ⟨hvp, _⟩ | ⟨_, hbp⟩
      · exact absurd h (hfresh b)
      · exact absurd hvp.symm hpv
      · exact hbp
    rw [hq] at hc2 hlen3
    rw [SimpleGraph.Walk.cons_isCycle_iff] at hc2
    have hqlen : 0 < q.reverse.length := by
      rw [SimpleGraph.Walk.length_reverse]
      rw [SimpleGraph.Walk.length_cons] at hlen3
      omega
    have hqnn : ¬ q.reverse.Nil := by
      rw [SimpleGraph.Walk.not_nil_iff_lt_length]
      exact hqlen
    obtain ⟨y, hay, q2, hq2⟩ := SimpleGraph.Walk.not_nil_iff.mp hqnn
    have hy : y = p := by
      rcases (hadj v y).mp hay with h | ⟨hvp, _⟩ | ⟨_, hyp⟩
      · exact absurd h (hfresh y)
      · exact absurd hvp.symm hpv
      · exact hyp
    have hmem : s(v, y) ∈ q.reverse.edges := by
      rw [hq2, SimpleGraph.Walk.edges_cons]
      exact List.mem_cons_self _ _
    rw [SimpleGraph.Walk.edges_reverse, List.mem_reverse] at hmem
    rw [hy, ← hb] at hmem
    exact hc2.2 hmem
  · have hedges : ∀ e ∈ c.edges, e ∈ G.edgeSet := by
      intro e he
      have hG2 : e ∈ G2.edgeSet := SimpleGraph.Walk.edges_subset_edgeSet c he
      revert he hG2
      induction e using Sym2.ind with
      | _ x y =>
        intro he hG2
        rw [SimpleGraph.mem_edgeSet] at hG2 ⊢
        rcases (hadj x y).mp hG2 with h | ⟨_, hyv⟩ | ⟨hxv, _⟩
        · exact h
        · exact absurd (hyv ▸ SimpleGraph.Walk.snd_mem_support_of_mem_edges c he) hv
        · exact absurd (hxv ▸ SimpleGraph.Walk.fst_mem_support_of_mem_edges c he) hv
    exact hG (c.transfer G hedges) (hc.transfer hedges)

theorem mazeGraph_adj {E : Finset EdgeP} {x y : Cell} :
    (mazeGraph E).Adj x y ↔ x ≠ y ∧ edgeKey x y ∈ E :=
  Iff.rfl

theorem growsFrom_acyclic (ord : List (Cell × Cell)) (vs : List Cell) :
    GrowsFrom vs ord → (∀ q ∈ ord, q.1 ≠ q.2) →
    (mazeGraph (carvedOf ord).toFinset).IsAcyclic := by
  induction ord using List.reverseRecOn with
  | nil =>
    intro _ _ u c hc
    cases c with
    | nil => exact hc.ne_nil rfl
    | cons hadj q => exact absurd hadj.2 (by simp [carvedOf])
  | append_singleton ord q ih =>
    intro hg hne
    obtain ⟨hg0, hq1, hq2⟩ := growsFrom_snoc vs ord q hg
    have hne0 : ∀ r ∈ ord, r.1 ≠ r.2 := fun r hr => hne r (List.mem_append_left _ hr)
    have hq12 : q.1 ≠ q.2 := hne q (List.mem_append_right _ (List.mem_singleton_self _))
    have hmemE : ∀ e, e ∈ (carvedOf (ord ++ [q])).toFinset ↔
        e ∈ (carvedOf ord).toFinset ∨ e = edgeKey q.1 q.2 := by
      intro e
      unfold carvedOf
      rw [List.mem_toFinset, List.mem_toFinset, List.map_append]
      rw [List.mem_append]
      simp only [List.map_cons, List.map_nil, List.mem_singleton]
    apply isAcyclic_addLeaf (mazeGraph (carvedOf ord).toFinset)
      (mazeGraph (carvedOf (ord ++ [q])).toFinset) q.1 q.2
    · intro x y
      rw [mazeGraph_adj, mazeGraph_adj, hmemE]
      constructor
      · intro ⟨hxy, hmem⟩
        rcases hmem with h | h
        · exact Or.inl ⟨hxy, h⟩
        · rcases edgeKey_eq_iff.mp h with ⟨h1, h2⟩ | ⟨h1, h2⟩
          · exact Or.inr (Or.inl ⟨h1, h2⟩)
          · exact Or.inr (Or.inr ⟨h1, h2⟩)
      · intro hcase
        rcases hcase with ⟨hxy, hmem⟩ | ⟨rfl, rfl⟩ | ⟨rfl, rfl⟩
        · exact ⟨hxy, Or.inl hmem⟩
        · exact ⟨hq12, Or.inr rfl⟩
        · exact ⟨hq12.symm, Or.inr (edgeKey_comm _ _)⟩
    · intro x hadjx
      rw [mazeGraph_adj] at hadjx
      obtain ⟨r, hr, hre⟩ := List.mem_map.mp (List.mem_toFinset.mp hadjx.2)
      have hcomp := growsFrom_comp vs ord hg0 r hr
      rcases edgeKey_eq_iff.mp hre.symm with ⟨h1, _⟩ | ⟨h2, _⟩
      · exact hq2 (by rw [h1]; exact hcomp.1)
      · exact hq2 (by rw [h2]; exact hcomp.2)
    · exact hq12
    · exact ih hg0 hne0

/-- **C1**: for every seed, the wall set returned by
`generatePerfectMaze` on the fixed 6×6 grid satisfies the spanning-tree
property: 35 passages (= R·C − 1), 25 walls (= 60 − 35), a connected
passage graph (the source's reachability check from `(0,0)` succeeds,
covering all 36 cells), and an acyclic passage graph. -/
theorem generatePerfectMaze_spanning_tree (codes : List Nat) :
    (generatePerfectMaze codes).card = 25 ∧
    (passagesFromWalls (generatePerfectMaze codes)).card = 35 ∧
    graphConnected (generatePerfectMaze codes) = true ∧
    (mazeGraph (passagesFromWalls (generatePerfectMaze codes))).IsAcyclic := by
  have hpass : (passagesFromWalls (generatePerfectMaze codes)).card = 35 := by
    rw [maze_passages codes]
    exact maze_carved_card codes
  refine ⟨?_, hpass, maze_walls_connected codes, ?_⟩
  · unfold generatePerfectMaze
    rw [Finset.card_sdiff (maze_carved_sub codes), allInternalEdges_card,
      maze_carved_card codes]
  · rw [maze_passages codes]
    obtain ⟨ord, hcarv, _, hgrow, hedges⟩ := (mazeFinal_spec codes).2.ghost
    rw [hcarv]
    exact growsFrom_acyclic ord _ hgrow (fun q hq => (hedges q hq).2)

/-- Witness for C2: the maze generated from the empty seed is connected
(by the shared connectivity helper), and `addExtraWalls` keeps it so. -/
theorem addExtraWalls_preserves_connectivity_witness :
    graphConnected (generatePerfectMaze []) = true ∧
      graphConnected (addExtraWalls (generatePerfectMaze []) 3 []).walls = true :=
  ⟨maze_walls_connected [],
    (addExtraWalls_preserves_connectivity (generatePerfectMaze []) 3 []
      (maze_walls_connected [])).1⟩

/-- Witness for C10, applied at a concrete CSV line. -/
theorem parseCSV_spec_witness :
    0 ≤ ((0 : Int), (1 : Int), "tree".data, "sustantivo".data).1 ∧
      ((0 : Int), (1 : Int), "tree".data, "sustantivo".data).1 < 6 ∧
      0 ≤ ((0 : Int), (1 : Int), "tree".data, "sustantivo".data).2.1 ∧
      ((0 : Int), (1 : Int), "tree".data, "sustantivo".data).2.1 < 6 ∧
      (∀ c0, ((0 : Int), (1 : Int), "tree".data, "sustantivo".data).2.2.2.head? = some c0 →
        isWSChar c0 = false) ∧
      (∀ c0, ((0 : Int), (1 : Int), "tree".data, "sustantivo".data).2.2.2.getLast? = some c0 →
        isWSChar c0 = false) ∧
      (∀ c0 ∈ ((0 : Int), (1 : Int), "tree".data, "sustantivo".data).2.2.2,
        ¬(65 ≤ c0.toNat ∧ c0.toNat ≤ 90)) :=
  parseCSV_spec "0,1,tree, SustAntivo".data _ (by decide)

end Laberinto
